import Mathlib

/-!
Shallow embedding of the MBufChain paged buffer (kernel/object/mbuf.cc and
kernel/object/include/object/mbuf.h).

Modelling conventions:
* A cell (MBuf) stores its valid bytes as a list `data_`; the valid length
  `len_` of the source is `data_.length` (the source's `data_` array region
  past `len_` is uninitialized and never read under the chain invariants).
* Machine integers (`size_t`, `uint32_t`) are modelled as `Nat`; all
  subtraction sites are guarded in the source by the chain invariants, under
  which `Nat` truncated subtraction agrees with the machine arithmetic.
* The external `UserCopy` primitive is an oracle `uc : Nat → Bool` giving the
  success of the k-th copy call of the operation (all-or-nothing per call; a
  zero-length copy always succeeds).  The bytes of user memory are a function
  `src : Nat → Nat` from byte offset to byte value.
* The external page allocator is an oracle `allocOk : Bool`: `AllocMBufs`
  returns exactly the requested cells or fails as a whole.
* Results carry a ghost `freed` list (cells handed to `FreeMBufs`) and a ghost
  `allocCount` (cells obtained from the allocator) for resource accounting.
-/

namespace MbufModel

/-- Page size of the modelled platform: 4096 bytes. -/
def PAGE_SIZE : Nat := 4096

/-- MBuf header size: two 8-byte linkage words, two 4-byte lengths, one 8-byte
page pointer (`(8 * 2) + (4 * 2) + 8` in mbuf.h). -/
def kHeaderSize : Nat := 8 * 2 + 4 * 2 + 8

/-- Payload bytes available in one MBuf cell: `PAGE_SIZE - kHeaderSize`. -/
def kPayloadSize : Nat := PAGE_SIZE - kHeaderSize

/-- Maximum number of bytes an MBufChain may hold: `128 * MBuf::kPayloadSize`. -/
def kSizeMax : Nat := 128 * kPayloadSize

/-- Number of MBuf cells needed to store a payload of the given size
(`MBuf::NumBuffersForPayload`). -/
def NumBuffersForPayload (payload : Nat) : Nat := 1 + (payload - 1) / kPayloadSize

/-- One MBuf cell: `data_` holds the `len_` valid payload bytes, `pkt_len_` is
the datagram frame length (0 for stream data and for non-head cells). -/
structure MBuf where
  data_ : List Nat
  pkt_len_ : Nat
deriving Repr, DecidableEq

instance : Inhabited MBuf := ⟨⟨[], 0⟩⟩

/-- Valid length of a cell (`MBuf::len_`). -/
def MBuf.len_ (b : MBuf) : Nat := b.data_.length

/-- Free space in a cell (`MBuf::rem`). -/
def MBuf.rem (b : MBuf) : Nat := kPayloadSize - b.len_

/-- A freshly allocated cell: no valid bytes, `pkt_len_ = 0`. -/
def freshMBuf : MBuf := ⟨[], 0⟩

/-- Status codes returned by the chain operations.  `errBadAccess` stands for
the underlying user-copy access error passed through by stream writes and by
reads. -/
inductive ZxStatus where
  | ok
  | errInvalidArgs
  | errOutOfRange
  | errShouldWait
  | errBadAccess
deriving Repr, DecidableEq

/-- The chain state: cell list (front = read cursor side, back = write cursor
side), read cursor offset inside the head cell, and byte counter. -/
structure MBufChain where
  buffers_ : List MBuf
  read_cursor_off_ : Nat
  size_ : Nat
deriving Repr, DecidableEq

/-- A chain as constructed: no cells, zero offset, zero size. -/
def MBufChain.empty : MBufChain := ⟨[], 0, 0⟩

/-- Bytes of user memory `src` at offsets `[pos, pos + n)`. -/
def chunk (src : Nat → Nat) (pos n : Nat) : List Nat :=
  (List.range n).map fun i => src (pos + i)

/-- Sum of the valid lengths of a cell list. -/
def sumLen (bs : List MBuf) : Nat := (bs.map MBuf.len_).sum

/-- Concatenated valid bytes of a cell list. -/
def joinData (bs : List MBuf) : List Nat := (bs.map MBuf.data_).flatten

/-- The unread bytes of a chain: all valid bytes past the read cursor. -/
def chainBytes (c : MBufChain) : List Nat :=
  (joinData c.buffers_).drop c.read_cursor_off_

/-- Result of a write operation: new chain, `written` out-parameter, status,
ghost list of freed cells, ghost count of allocated cells. -/
structure WResult where
  chain : MBufChain
  written : Nat
  status : ZxStatus
  freed : List MBuf
  allocCount : Nat
deriving Repr, DecidableEq

/-- The copy loop of `WriteDatagram`: fill the freshly allocated cells in
order, `copy_len = min(kPayloadSize, len - pos)` each; a failed copy aborts
(first component `false`).  The second component is the cell list in its state
at exit. -/
def wdFill (src : Nat → Nat) (uc : Nat → Bool) (len : Nat) :
    Nat → Nat → List MBuf → Bool × List MBuf
  | _, _, [] => (true, [])
  | k, pos, b :: rest =>
    let copy_len := min kPayloadSize (len - pos)
    if copy_len = 0 ∨ uc k = true then
      let b' : MBuf := ⟨b.data_ ++ chunk src pos copy_len, b.pkt_len_⟩
      let r := wdFill src uc len (k + 1) (pos + copy_len) rest
      (r.1, b' :: r.2)
    else (false, b :: rest)

/-- Set `pkt_len_` of the first cell (`bufs.front().pkt_len_ = len`). -/
def setPktLen (len : Nat) : List MBuf → List MBuf
  | [] => []
  | b :: rest => ⟨b.data_, len⟩ :: rest

/-- `MBufChain::WriteDatagram`: reject `len == 0`, `len > kSizeMax`, and
`len + size_ > kSizeMax`; allocate exactly `NumBuffersForPayload len` cells;
copy page by page (freeing everything on a copy fault); mark the first cell
with the frame length and splice the list onto the tail. -/
def WriteDatagram (c : MBufChain) (src : Nat → Nat) (len : Nat) (allocOk : Bool)
    (uc : Nat → Bool) : WResult :=
  if len = 0 then ⟨c, 0, .errInvalidArgs, [], 0⟩
  else if kSizeMax < len then ⟨c, 0, .errOutOfRange, [], 0⟩
  else if kSizeMax < len + c.size_ then ⟨c, 0, .errShouldWait, [], 0⟩
  else if allocOk = false then ⟨c, 0, .errShouldWait, [], 0⟩
  else
    let n := NumBuffersForPayload len
    let r := wdFill src uc len 0 0 (List.replicate n freshMBuf)
    if r.1 = true then
      let bufs := setPktLen len r.2
      ⟨⟨c.buffers_ ++ bufs, c.read_cursor_off_, c.size_ + len⟩, len, .ok, [], n⟩
    else ⟨c, 0, .errInvalidArgs, r.2, n⟩

/-- State of the allocate-and-fill loop of `WriteStream`. -/
structure WsOut where
  pos : Nat
  bufs : List MBuf
  size : Nat
  freed : List MBuf
  status : ZxStatus
deriving Repr, DecidableEq

/-- The allocate-and-fill loop of `WriteStream`: for each fresh cell run
`write_buffer` (copy `min(rem, len - pos)` bytes at the cell's write offset)
and on success push the cell onto the chain tail; on a copy fault stop,
leaving the unappended cells to be freed. -/
def wsLoop (src : Nat → Nat) (uc : Nat → Bool) (lenc : Nat) :
    Nat → Nat → List MBuf → Nat → List MBuf → WsOut
  | _, pos, bufsC, size, [] => ⟨pos, bufsC, size, [], .ok⟩
  | k, pos, bufsC, size, b :: rest =>
    let copy_len := min b.rem (lenc - pos)
    if copy_len = 0 ∨ uc k = true then
      let b' : MBuf := ⟨b.data_ ++ chunk src pos copy_len, b.pkt_len_⟩
      wsLoop src uc lenc (k + 1) (pos + copy_len) (bufsC ++ [b']) (size + copy_len) rest
    else ⟨pos, bufsC, size, b :: rest, .errBadAccess⟩

/-- Tail of `WriteStream` after the existing tail cell was (possibly) filled:
allocate `NumBuffersForPayload (lenc - pos)` more cells if bytes remain, run
the fill loop, and compute the final `written`/status (`SHOULD_WAIT` iff
nothing was written and no copy fault was returned). -/
def wsStage2 (src : Nat → Nat) (uc : Nat → Bool) (allocOk : Bool) (lenc : Nat)
    (k pos : Nat) (bufsC : List MBuf) (size ro : Nat) : WResult :=
  if pos = lenc then
    ⟨⟨bufsC, ro, size⟩, pos, if pos = 0 then .errShouldWait else .ok, [], 0⟩
  else if allocOk = true then
    let n := NumBuffersForPayload (lenc - pos)
    let r := wsLoop src uc lenc k pos bufsC size (List.replicate n freshMBuf)
    if r.status = .ok then
      ⟨⟨r.bufs, ro, r.size⟩, r.pos, if r.pos = 0 then .errShouldWait else .ok, [], n⟩
    else ⟨⟨r.bufs, ro, r.size⟩, r.pos, r.status, r.freed, n⟩
  else ⟨⟨bufsC, ro, size⟩, pos, if pos = 0 then .errShouldWait else .ok, [], 0⟩

/-- `MBufChain::WriteStream`: clamp `len` to `kSizeMax - size_`, fill the
existing tail cell first if it has free space (a copy fault there returns
immediately with nothing committed by that call), then allocate and fill new
cells. -/
def WriteStream (c : MBufChain) (src : Nat → Nat) (len0 : Nat) (allocOk : Bool)
    (uc : Nat → Bool) : WResult :=
  let lenc := min (kSizeMax - c.size_) len0
  if c.buffers_ ≠ [] ∧ 0 < (c.buffers_.getLastD freshMBuf).rem then
    let b := c.buffers_.getLastD freshMBuf
    let copy_len := min b.rem lenc
    if copy_len = 0 ∨ uc 0 = true then
      let b' : MBuf := ⟨b.data_ ++ chunk src 0 copy_len, b.pkt_len_⟩
      wsStage2 src uc allocOk lenc 1 copy_len (c.buffers_.dropLast ++ [b'])
        (c.size_ + copy_len) c.read_cursor_off_
    else ⟨c, 0, .errBadAccess, [], 0⟩
  else wsStage2 src uc allocOk lenc 0 0 c.buffers_ c.size_ c.read_cursor_off_

/-- Result of `Read`/`Peek`: new chain, bytes delivered to user memory (the
concatenation of the successful copies), `actual` out-parameter, status, and
ghost list of freed cells. -/
structure RResult where
  chain : MBufChain
  bytes : List Nat
  actual : Nat
  status : ZxStatus
  freed : List MBuf
deriving Repr, DecidableEq

/-- State of the main `ReadHelper` traversal loop. -/
structure LoopOut where
  pos : Nat
  ro : Nat
  size : Nat
  bufs : List MBuf
  out : List Nat
  fl : List MBuf
  status : ZxStatus
deriving Repr, DecidableEq

/-- The main loop of `MBufChain::ReadHelper`, parameterized like the source
template on constness (`isConst = true` is the `Peek` instantiation, which
advances to the next cell at offset 0 and never touches the chain) and on
`datagram` mode (which pops the current cell every iteration, discarding its
unread remainder from `size`).  A copy fault stops the traversal; in consume
mode the datagram branch still pops the faulting cell. -/
def rhLoop (uc : Nat → Bool) (isConst datagram : Bool) (len : Nat) :
    Nat → Nat → Nat → Nat → List MBuf → List Nat → List MBuf → LoopOut
  | _, pos, ro, size, [], out, fl => ⟨pos, ro, size, [], out, fl, .ok⟩
  | k, pos, ro, size, b :: rest, out, fl =>
    if pos < len then
      let copy_len := min (b.len_ - ro) (len - pos)
      if copy_len = 0 ∨ uc k = true then
        let out' := out ++ (b.data_.drop ro).take copy_len
        if isConst = true then
          rhLoop uc isConst datagram len (k + 1) (pos + copy_len) 0 size rest out' fl
        else
          let ro' := ro + copy_len
          let size' := size - copy_len
          if ro' = b.len_ ∨ datagram = true then
            let size'' := if datagram = true then size' - (b.len_ - ro') else size'
            rhLoop uc isConst datagram len (k + 1) (pos + copy_len) 0 size'' rest out'
              (fl ++ [b])
          else ⟨pos + copy_len, ro', size', b :: rest, out', fl, .ok⟩
      else
        if isConst = true then ⟨pos, ro, size, b :: rest, out, fl, .errBadAccess⟩
        else if ro = b.len_ ∨ datagram = true then
          let size' := if datagram = true then size - (b.len_ - ro) else size
          ⟨pos, 0, size', rest, out, fl ++ [b], .errBadAccess⟩
        else ⟨pos, ro, size, b :: rest, out, fl, .errBadAccess⟩
    else ⟨pos, ro, size, b :: rest, out, fl, .ok⟩

/-- State after the datagram drain phase of `ReadHelper`. -/
structure DrainOut where
  ro : Nat
  size : Nat
  bufs : List MBuf
  fl : List MBuf
deriving Repr, DecidableEq

/-- The datagram drain loop of `ReadHelper` (consume mode only): pop leading
cells with `pkt_len_ == 0` — the remainder of the current datagram — and
subtract their unread bytes from `size`. -/
def rhDrain : Nat → Nat → List MBuf → List MBuf → DrainOut
  | ro, size, [], fl => ⟨ro, size, [], fl⟩
  | ro, size, b :: rest, fl =>
    if b.pkt_len_ = 0 then rhDrain 0 (size - (b.len_ - ro)) rest (fl ++ [b])
    else ⟨ro, size, b :: rest, fl⟩

/-- `MBufChain::ReadHelper`: empty chain returns `(0, OK)`; in datagram mode
`len` is clamped to the head cell's `pkt_len_`; then the traversal loop runs,
followed (in consume mode, datagram) by the drain loop.  In the const
instantiation no state is written back and no cell is freed. -/
def ReadHelper (isConst : Bool) (c : MBufChain) (uc : Nat → Bool) (len0 : Nat)
    (datagram : Bool) : RResult :=
  if c.size_ = 0 then ⟨c, [], 0, .ok, []⟩
  else
    let front := c.buffers_.headD freshMBuf
    let len := if datagram = true ∧ front.pkt_len_ < len0 then front.pkt_len_ else len0
    let r := rhLoop uc isConst datagram len 0 0 c.read_cursor_off_ c.size_ c.buffers_ [] []
    if isConst = true then ⟨c, r.out, r.pos, r.status, []⟩
    else
      let d := if datagram = true then rhDrain r.ro r.size r.bufs r.fl
               else ⟨r.ro, r.size, r.bufs, r.fl⟩
      ⟨⟨d.bufs, d.ro, d.size⟩, r.out, r.pos, r.status, d.fl⟩

/-- `MBufChain::Read`: the non-const (consuming) instantiation of the helper. -/
def MBufChain.Read (c : MBufChain) (uc : Nat → Bool) (len : Nat) (datagram : Bool) :
    RResult :=
  ReadHelper false c uc len datagram

/-- `MBufChain::Peek`: the const (non-consuming) instantiation of the helper. -/
def MBufChain.Peek (c : MBufChain) (uc : Nat → Bool) (len : Nat) (datagram : Bool) :
    RResult :=
  ReadHelper true c uc len datagram

/-- `MBufChain::size(bool datagram)`: with `datagram` set and a nonzero byte
count, the head cell's `pkt_len_`; otherwise the byte counter. -/
def MBufChain.size (c : MBufChain) (datagram : Bool) : Nat :=
  if datagram = true ∧ c.size_ ≠ 0 then (c.buffers_.headD freshMBuf).pkt_len_ else c.size_

/-- Structural well-formedness of a chain state, maintained by every public
operation: the byte counter plus the read offset equals the total valid
length; the read offset is 0 on an empty chain and lies strictly inside the
head cell otherwise; every cell holds between 1 and `kPayloadSize` valid
bytes; the byte counter respects the capacity bound. -/
def wf (c : MBufChain) : Bool :=
  decide (c.size_ + c.read_cursor_off_ = sumLen c.buffers_) &&
  (match c.buffers_ with
   | [] => decide (c.read_cursor_off_ = 0)
   | b :: _ => decide (c.read_cursor_off_ < b.len_)) &&
  c.buffers_.all (fun b => decide (1 ≤ b.len_) && decide (b.len_ ≤ kPayloadSize)) &&
  decide (c.size_ ≤ kSizeMax)

/-- Propositional form of `wf`. -/
def WF (c : MBufChain) : Prop := wf c = true

instance (c : MBufChain) : Decidable (WF c) :=
  inferInstanceAs (Decidable (wf c = true))

/-- The chain states reachable from a fresh chain by the public operations,
under arbitrary user memory, copy-fault and allocator behavior. -/
inductive Reach : MBufChain → Prop where
  | empty : Reach MBufChain.empty
  | writeStream (c : MBufChain) (src : Nat → Nat) (len : Nat) (allocOk : Bool)
      (uc : Nat → Bool) : Reach c → Reach (WriteStream c src len allocOk uc).chain
  | writeDatagram (c : MBufChain) (src : Nat → Nat) (len : Nat) (allocOk : Bool)
      (uc : Nat → Bool) : Reach c → Reach (WriteDatagram c src len allocOk uc).chain
  | read (c : MBufChain) (uc : Nat → Bool) (len : Nat) (datagram : Bool) :
      Reach c → Reach (MBufChain.Read c uc len datagram).chain
  | peek (c : MBufChain) (uc : Nat → Bool) (len : Nat) (datagram : Bool) :
      Reach c → Reach (MBufChain.Peek c uc len datagram).chain

/-- A well-formed datagram: a nonempty cell run whose head carries the total
frame length in `pkt_len_`, whose body cells have `pkt_len_ = 0`, and whose
cells all hold at least one byte. -/
def dgOk (d : List MBuf) : Prop :=
  d ≠ [] ∧ (d.headD freshMBuf).pkt_len_ = sumLen d ∧
  (∀ b ∈ d.tail, b.pkt_len_ = 0) ∧ (∀ b ∈ d, 1 ≤ b.len_)

/-- A datagram-mode chain state: the cell list is the concatenation of the
given datagrams in FIFO order, the read cursor is at 0, and `size_` counts
all their bytes. -/
def DgChain (c : MBufChain) (dgs : List (List MBuf)) : Prop :=
  c.buffers_ = dgs.flatten ∧ c.read_cursor_off_ = 0 ∧
  c.size_ = sumLen dgs.flatten ∧ ∀ d ∈ dgs, dgOk d

instance (d : List MBuf) : Decidable (dgOk d) := by
  unfold dgOk
  infer_instance

instance (c : MBufChain) (dgs : List (List MBuf)) : Decidable (DgChain c dgs) := by
  unfold DgChain
  infer_instance

theorem kPayloadSize_pos : 0 < kPayloadSize := by decide

theorem kSizeMax_eq : kSizeMax = 128 * kPayloadSize := rfl

@[simp]
theorem MBuf.len_mk (d : List Nat) (p : Nat) : MBuf.len_ ⟨d, p⟩ = d.length := rfl

@[simp]
theorem freshMBuf_rem : freshMBuf.rem = kPayloadSize := by
  simp [freshMBuf, MBuf.rem, MBuf.len_]

@[simp]
theorem freshMBuf_len : freshMBuf.len_ = 0 := rfl

@[simp]
theorem chunk_zero (src : Nat → Nat) (pos : Nat) : chunk src pos 0 = [] := by
  simp [chunk]

@[simp]
theorem chunk_length (src : Nat → Nat) (pos n : Nat) : (chunk src pos n).length = n := by
  simp [chunk]

theorem chunk_add (src : Nat → Nat) (pos m n : Nat) :
    chunk src pos (m + n) = chunk src pos m ++ chunk src (pos + m) n := by
  simp only [chunk, List.range_add, List.map_append, List.map_map]
  congr 1
  apply List.map_congr_left
  intro i _
  simp only [Function.comp_apply]
  ring_nf

@[simp]
theorem sumLen_nil : sumLen [] = 0 := rfl

@[simp]
theorem sumLen_cons (b : MBuf) (bs : List MBuf) : sumLen (b :: bs) = b.len_ + sumLen bs := by
  simp [sumLen]

@[simp]
theorem sumLen_append (xs ys : List MBuf) : sumLen (xs ++ ys) = sumLen xs + sumLen ys := by
  simp [sumLen]

@[simp]
theorem joinData_nil : joinData [] = [] := rfl

@[simp]
theorem joinData_cons (b : MBuf) (bs : List MBuf) :
    joinData (b :: bs) = b.data_ ++ joinData bs := by
  simp [joinData]

@[simp]
theorem joinData_append (xs ys : List MBuf) :
    joinData (xs ++ ys) = joinData xs ++ joinData ys := by
  simp [joinData]

@[simp]
theorem length_joinData (bs : List MBuf) : (joinData bs).length = sumLen bs := by
  induction bs with
  | nil => rfl
  | cons b bs ih => simp [ih, MBuf.len_]

@[simp]
theorem freshMBuf_data : freshMBuf.data_ = [] := rfl

@[simp]
theorem freshMBuf_pkt : freshMBuf.pkt_len_ = 0 := rfl

theorem nbp_pos (n : Nat) : 1 ≤ NumBuffersForPayload n := by
  simp [NumBuffersForPayload]

theorem nbp_eq_one {n : Nat} (h : n ≤ kPayloadSize) : NumBuffersForPayload n = 1 := by
  have h1 : n - 1 < kPayloadSize := by
    have := kPayloadSize_pos
    omega
  simp [NumBuffersForPayload, Nat.div_eq_of_lt h1]

theorem nbp_step {n : Nat} (h : kPayloadSize < n) :
    NumBuffersForPayload n = NumBuffersForPayload (n - kPayloadSize) + 1 := by
  have h1 : kPayloadSize ≤ n - 1 := by omega
  have h2 : n - 1 - kPayloadSize = n - kPayloadSize - 1 := by omega
  simp only [NumBuffersForPayload, Nat.div_eq_sub_div kPayloadSize_pos h1, h2]
  omega

theorem wsLoop_spec (src : Nat → Nat) (uc : Nat → Bool) (lenc : Nat) :
    ∀ (n k pos : Nat) (bufsC : List MBuf) (size : Nat) (r : WsOut),
      r = wsLoop src uc lenc k pos bufsC size (List.replicate n freshMBuf) →
      n = NumBuffersForPayload (lenc - pos) → pos < lenc →
      ∃ app : List MBuf,
        r.bufs = bufsC ++ app ∧
        (∀ b ∈ app, 1 ≤ b.len_ ∧ b.len_ ≤ kPayloadSize ∧ b.pkt_len_ = 0) ∧
        joinData app = chunk src pos (r.pos - pos) ∧
        sumLen app = r.pos - pos ∧
        r.bufs.length + r.freed.length = bufsC.length + n ∧
        pos ≤ r.pos ∧ r.pos ≤ lenc ∧
        r.size = size + (r.pos - pos) ∧
        (r.status = .ok → r.pos = lenc) ∧
        (r.status = .ok ∨ r.status = .errBadAccess) ∧
        ((∀ j, uc j = true) → r.status = .ok) ∧
        (r.status = .ok → r.freed = []) := by
  intro n
  induction n with
  | zero =>
    intro k pos bufsC size r hr hn hp
    exfalso
    have := nbp_pos (lenc - pos)
    omega
  | succ m ih =>
    intro k pos bufsC size r hr hn hp
    rw [List.replicate_succ] at hr
    simp only [wsLoop, freshMBuf_rem, freshMBuf_data, freshMBuf_pkt, List.nil_append] at hr
    have hcl1 : 1 ≤ min kPayloadSize (lenc - pos) := by
      have := kPayloadSize_pos
      omega
    by_cases hc : min kPayloadSize (lenc - pos) = 0 ∨ uc k = true
    · rw [if_pos hc] at hr
      by_cases hA : lenc - pos ≤ kPayloadSize
      · have hclA : min kPayloadSize (lenc - pos) = lenc - pos := by omega
        have hm : m = 0 := by
          have := nbp_eq_one hA
          omega
        subst hm
        simp only [List.replicate, wsLoop] at hr
        subst hr
        refine ⟨[⟨chunk src pos (min kPayloadSize (lenc - pos)), 0⟩], ?_, ?_, ?_, ?_, ?_,
          ?_, ?_, ?_, ?_, ?_, ?_, ?_⟩
        · rfl
        · intro b hb
          simp only [List.mem_singleton] at hb
          subst hb
          simp only [MBuf.len_mk, chunk_length]
          exact ⟨by omega, by omega, trivial⟩
        · have h1 : pos + min kPayloadSize (lenc - pos) - pos = min kPayloadSize (lenc - pos) := by
            omega
          simp [h1]
        · simp only [sumLen_cons, sumLen_nil, MBuf.len_mk, chunk_length]
          omega
        · simp
        · simp
        · dsimp only
          omega
        · dsimp only
          omega
        · intro _
          dsimp only
          omega
        · exact Or.inl rfl
        · intro _
          rfl
        · intro _
          rfl
      · have hclB : min kPayloadSize (lenc - pos) = kPayloadSize := by omega
        rw [hclB] at hr
        have hn2 : m = NumBuffersForPayload (lenc - (pos + kPayloadSize)) := by
          have h3 : lenc - (pos + kPayloadSize) = (lenc - pos) - kPayloadSize := by omega
          rw [h3]
          have h4 := nbp_step (show kPayloadSize < lenc - pos by omega)
          omega
        have hp2 : pos + kPayloadSize < lenc := by omega
        obtain ⟨app, hbufs, hmem, hjoin, hsum, hlen, hpl, hpl2, hsize, hok, hst, hu, hfr⟩ :=
          ih (k + 1) (pos + kPayloadSize) (bufsC ++ [⟨chunk src pos kPayloadSize, 0⟩])
            (size + kPayloadSize) r hr hn2 hp2
        refine ⟨⟨chunk src pos kPayloadSize, 0⟩ :: app, ?_, ?_, ?_, ?_, ?_, ?_, ?_, ?_,
          ?_, ?_, ?_, ?_⟩
        · rw [hbufs, List.append_assoc, List.singleton_append]
        · intro b hb
          rcases List.mem_cons.mp hb with hb | hb
          · subst hb
            simp only [MBuf.len_mk, chunk_length]
            exact ⟨kPayloadSize_pos, le_refl _, trivial⟩
          · exact hmem b hb
        · have harith : r.pos - pos = kPayloadSize + (r.pos - (pos + kPayloadSize)) := by
            omega
          rw [harith, chunk_add]
          simp [hjoin]
        · simp only [sumLen_cons, MBuf.len_mk, chunk_length, hsum]
          omega
        · simp only [List.length_append, List.length_cons, List.length_nil] at hlen ⊢
          omega
        · omega
        · exact hpl2
        · omega
        · exact hok
        · exact hst
        · exact hu
        · exact hfr
    · rw [if_neg hc] at hr
      subst hr
      push_neg at hc
      refine ⟨[], by simp, by simp, ?_, by simp, ?_, ?_, ?_, ?_, ?_, Or.inr rfl, ?_, ?_⟩
      · simp
      · simp
      · dsimp only
        omega
      · dsimp only
        omega
      · dsimp only
        omega
      · intro h
        exact absurd h (by simp)
      · intro hforall
        exact absurd (hforall k) (by simpa using hc.2)
      · intro h
        exact absurd h (by simp)

theorem wdFill_spec (src : Nat → Nat) (uc : Nat → Bool) (len : Nat) :
    ∀ (n k pos : Nat) (r : Bool × List MBuf),
      r = wdFill src uc len k pos (List.replicate n freshMBuf) →
      n = NumBuffersForPayload (len - pos) → pos < len →
      (r.1 = true →
        (∀ b ∈ r.2, 1 ≤ b.len_ ∧ b.len_ ≤ kPayloadSize ∧ b.pkt_len_ = 0) ∧
        sumLen r.2 = len - pos ∧
        joinData r.2 = chunk src pos (len - pos) ∧
        r.2.length = n) ∧
      ((∀ j, uc j = true) → r.1 = true) := by
  intro n
  induction n with
  | zero =>
    intro k pos r hr hn hp
    exfalso
    have := nbp_pos (len - pos)
    omega
  | succ m ih =>
    intro k pos r hr hn hp
    rw [List.replicate_succ] at hr
    simp only [wdFill, freshMBuf_data, freshMBuf_pkt, List.nil_append] at hr
    have hcl1 : 1 ≤ min kPayloadSize (len - pos) := by
      have := kPayloadSize_pos
      omega
    by_cases hc : min kPayloadSize (len - pos) = 0 ∨ uc k = true
    · rw [if_pos hc] at hr
      by_cases hA : len - pos ≤ kPayloadSize
      · have hclA : min kPayloadSize (len - pos) = len - pos := by omega
        have hm : m = 0 := by
          have := nbp_eq_one hA
          omega
        subst hm
        simp only [List.replicate, wdFill] at hr
        subst hr
        constructor
        · intro _
          refine ⟨?_, ?_, ?_, by simp⟩
          · intro b hb
            simp only [List.mem_singleton] at hb
            subst hb
            simp only [MBuf.len_mk, chunk_length]
            exact ⟨by omega, by omega, trivial⟩
          · simp only [sumLen_cons, sumLen_nil, MBuf.len_mk, chunk_length]
            omega
          · rw [hclA]
            simp
        · intro _
          rfl
      · have hclB : min kPayloadSize (len - pos) = kPayloadSize := by omega
        rw [hclB] at hr
        have hn2 : m = NumBuffersForPayload (len - (pos + kPayloadSize)) := by
          have h3 : len - (pos + kPayloadSize) = (len - pos) - kPayloadSize := by omega
          rw [h3]
          have h4 := nbp_step (show kPayloadSize < len - pos by omega)
          omega
        have hp2 : pos + kPayloadSize < len := by omega
        obtain ⟨hok, hu⟩ := ih (k + 1) (pos + kPayloadSize)
          (wdFill src uc len (k + 1) (pos + kPayloadSize) (List.replicate m freshMBuf))
          rfl hn2 hp2
        subst hr
        constructor
        · intro htrue
          dsimp only at htrue
          obtain ⟨hmem, hsum, hjoin, hcard⟩ := hok htrue
          refine ⟨?_, ?_, ?_, ?_⟩
          · intro b hb
            rcases List.mem_cons.mp hb with hb | hb
            · subst hb
              simp only [MBuf.len_mk, chunk_length]
              exact ⟨kPayloadSize_pos, le_refl _, trivial⟩
            · exact hmem b hb
          · dsimp only
            simp only [sumLen_cons, MBuf.len_mk, chunk_length, hsum]
            omega
          · dsimp only
            have harith : len - pos = kPayloadSize + (len - (pos + kPayloadSize)) := by
              omega
            rw [harith, chunk_add]
            simp [hjoin]
          · dsimp only
            simp [hcard]
        · intro hforall
          dsimp only
          exact hu hforall
    · rw [if_neg hc] at hr
      subst hr
      push_neg at hc
      constructor
      · intro h
        exact absurd h (by simp)
      · intro hforall
        exact absurd (hforall k) (by simpa using hc.2)

theorem WF_iff (c : MBufChain) :
    WF c ↔ (c.size_ + c.read_cursor_off_ = sumLen c.buffers_ ∧
      (c.buffers_ = [] → c.read_cursor_off_ = 0) ∧
      (c.buffers_ ≠ [] → c.read_cursor_off_ < (c.buffers_.headD freshMBuf).len_) ∧
      (∀ b ∈ c.buffers_, 1 ≤ b.len_ ∧ b.len_ ≤ kPayloadSize) ∧
      c.size_ ≤ kSizeMax) := by
  rcases c with ⟨bufs, ro, sz⟩
  unfold WF wf
  cases bufs with
  | nil =>
    simp
    omega
  | cons b rest =>
    simp only [Bool.and_eq_true, decide_eq_true_eq, List.all_eq_true, List.headD_cons]
    constructor
    · rintro ⟨⟨⟨h1, h2⟩, h3⟩, h4⟩
      refine ⟨h1, by simp, fun _ => h2, ?_, h4⟩
      intro x hx
      have := h3 x hx
      simpa using this
    · rintro ⟨h1, _, h3, h4, h5⟩
      refine ⟨⟨⟨h1, h3 (by simp)⟩, ?_⟩, h5⟩
      intro x hx
      have := h4 x hx
      simpa using this

theorem headD_append_left {xs ys : List MBuf} (h : xs ≠ []) (d : MBuf) :
    (xs ++ ys).headD d = xs.headD d := by
  cases xs with
  | nil => exact absurd rfl h
  | cons a l => rfl

theorem wsStage2_spec (src : Nat → Nat) (uc : Nat → Bool) (allocOk : Bool) (lenc : Nat)
    (k pos : Nat) (bufsC : List MBuf) (size ro : Nat) (J : List Nat) (r : WResult)
    (hr : r = wsStage2 src uc allocOk lenc k pos bufsC size ro)
    (hpos : pos ≤ lenc)
    (heq : size + ro = sumLen bufsC)
    (hcells : ∀ b ∈ bufsC, 1 ≤ b.len_ ∧ b.len_ ≤ kPayloadSize)
    (hnil : bufsC = [] → ro = 0)
    (hhead : bufsC ≠ [] → ro < (bufsC.headD freshMBuf).len_)
    (hJ : joinData bufsC = J ++ chunk src 0 pos) :
    r.chain.read_cursor_off_ = ro ∧
    r.chain.size_ + pos = size + r.written ∧
    pos ≤ r.written ∧ r.written ≤ lenc ∧
    joinData r.chain.buffers_ = J ++ chunk src 0 r.written ∧
    r.chain.buffers_.length + r.freed.length = bufsC.length + r.allocCount ∧
    r.chain.size_ + r.chain.read_cursor_off_ = sumLen r.chain.buffers_ ∧
    (∀ b ∈ r.chain.buffers_, 1 ≤ b.len_ ∧ b.len_ ≤ kPayloadSize) ∧
    (r.chain.buffers_ = [] → r.chain.read_cursor_off_ = 0) ∧
    (r.chain.buffers_ ≠ [] →
      r.chain.read_cursor_off_ < (r.chain.buffers_.headD freshMBuf).len_) ∧
    (r.status = .ok ∨ r.status = .errShouldWait ∨ r.status = .errBadAccess) ∧
    ((∀ j, uc j = true) → allocOk = true →
      r.written = lenc ∧ (r.status = .errShouldWait ↔ lenc = 0)) := by
  unfold wsStage2 at hr
  by_cases hpl : pos = lenc
  · rw [if_pos hpl] at hr
    subst hr
    refine ⟨rfl, by dsimp only <;> omega, le_refl _, hpos, hJ, by simp, heq, hcells,
      hnil, hhead, ?_, ?_⟩
    · dsimp only
      split
      · exact Or.inr (Or.inl rfl)
      · exact Or.inl rfl
    · intro _ _
      refine ⟨hpl, ?_⟩
      dsimp only
      by_cases h0 : pos = 0
      · rw [if_pos h0]
        constructor
        · intro _
          omega
        · intro _
          rfl
      · rw [if_neg h0]
        constructor
        · intro h
          exact absurd h (by simp)
        · intro h
          omega
  · rw [if_neg hpl] at hr
    by_cases hA : allocOk = true
    · rw [if_pos hA] at hr
      simp only [] at hr
      obtain ⟨app, hbufs, hmem, hjoin, hsum, hlen, hpl1, hpl2, hsize, hok, hst, hu, hfr⟩ :=
        wsLoop_spec src uc lenc (NumBuffersForPayload (lenc - pos)) k pos bufsC size
          (wsLoop src uc lenc k pos bufsC size
            (List.replicate (NumBuffersForPayload (lenc - pos)) freshMBuf))
          rfl rfl (by omega)
      set rl := wsLoop src uc lenc k pos bufsC size
        (List.replicate (NumBuffersForPayload (lenc - pos)) freshMBuf) with hrl
      have hjoin2 : joinData rl.bufs = J ++ chunk src 0 rl.pos := by
        rw [hbufs, joinData_append, hJ, hjoin, List.append_assoc]
        have h1 : rl.pos = pos + (rl.pos - pos) := by omega
        rw [h1, chunk_add, Nat.zero_add]
        have h2 : pos + (rl.pos - pos) - pos = rl.pos - pos := by omega
        rw [h2]
      have hsum2 : rl.size + ro = sumLen rl.bufs := by
        rw [hbufs, sumLen_append, hsum]
        omega
      have hcells2 : ∀ b ∈ rl.bufs, 1 ≤ b.len_ ∧ b.len_ ≤ kPayloadSize := by
        rw [hbufs, List.forall_mem_append]
        exact ⟨hcells, fun b hb => ⟨(hmem b hb).1, (hmem b hb).2.1⟩⟩
      have hnil2 : rl.bufs = [] → ro = 0 := by
        intro h
        rw [hbufs] at h
        exact hnil (List.append_eq_nil.mp h).1
      have hhead2 : rl.bufs ≠ [] → ro < (rl.bufs.headD freshMBuf).len_ := by
        intro hne
        cases hbc : bufsC with
        | nil =>
          cases happ : app with
          | nil =>
            exfalso
            apply hne
            rw [hbufs, hbc, happ]
            rfl
          | cons a l =>
            rw [hbufs, hbc, happ, List.nil_append, List.headD_cons]
            have ha := hmem a (by rw [happ]; simp)
            have hro := hnil hbc
            omega
        | cons b rest =>
          rw [hbufs, headD_append_left (by rw [hbc]; simp)]
          rw [hbc] at hhead ⊢
          exact hhead (by simp)
      by_cases hst2 : rl.status = .ok
      · rw [if_pos hst2] at hr
        subst hr
        refine ⟨rfl, by dsimp only <;> omega, by dsimp only <;> omega, by dsimp only <;> omega,
          hjoin2, ?_, hsum2, hcells2, hnil2, hhead2, ?_, ?_⟩
        · dsimp only
          have hfe := hfr hst2
          rw [hfe] at hlen
          simp only [List.length_nil] at hlen ⊢
          omega
        · dsimp only
          split
          · exact Or.inr (Or.inl rfl)
          · exact Or.inl rfl
        · intro hforall _
          have hpe := hok hst2
          dsimp only
          refine ⟨hpe, ?_⟩
          by_cases h0 : rl.pos = 0
          · rw [if_pos h0]
            constructor
            · intro _
              omega
            · intro _
              rfl
          · rw [if_neg h0]
            constructor
            · intro h
              exact absurd h (by simp)
            · intro h
              omega
      · rw [if_neg hst2] at hr
        subst hr
        have hba : rl.status = .errBadAccess := by
          rcases hst with h | h
          · exact absurd h hst2
          · exact h
        refine ⟨rfl, by dsimp only <;> omega, by dsimp only <;> omega, by dsimp only <;> omega,
          hjoin2, ?_, hsum2, hcells2, hnil2, hhead2, ?_, ?_⟩
        · dsimp only
          rw [hbufs] at hlen ⊢
          simp only [List.length_append] at hlen ⊢
          omega
        · dsimp only
          rw [hba]
          exact Or.inr (Or.inr rfl)
        · intro hforall _
          exact absurd (hu hforall) hst2
    · rw [if_neg hA] at hr
      subst hr
      refine ⟨rfl, by dsimp only <;> omega, le_refl _, hpos, hJ, by simp, heq, hcells,
        hnil, hhead, ?_, ?_⟩
      · dsimp only
        split
        · exact Or.inr (Or.inl rfl)
        · exact Or.inl rfl
      · intro _ h
        exact absurd h hA

theorem sumLen_head_le {b : MBuf} {rest : List MBuf} : b.len_ ≤ sumLen (b :: rest) := by
  simp only [sumLen_cons]
  omega

theorem WriteStream_spec (c : MBufChain) (src : Nat → Nat) (len0 : Nat) (allocOk : Bool)
    (uc : Nat → Bool) (r : WResult) (hr : r = WriteStream c src len0 allocOk uc)
    (hwf : WF c) :
    r.chain.read_cursor_off_ = c.read_cursor_off_ ∧
    r.chain.size_ = c.size_ + r.written ∧
    chainBytes r.chain = chainBytes c ++ chunk src 0 r.written ∧
    r.chain.buffers_.length + r.freed.length = c.buffers_.length + r.allocCount ∧
    r.written ≤ min (kSizeMax - c.size_) len0 ∧
    WF r.chain ∧
    (r.status = .ok ∨ r.status = .errShouldWait ∨ r.status = .errBadAccess) ∧
    ((∀ j, uc j = true) → allocOk = true →
      r.written = min (kSizeMax - c.size_) len0 ∧
      (r.status = .errShouldWait ↔ r.written = 0)) := by
  obtain ⟨hweq, hwnil, hwhead, hwcells, hwcap⟩ := (WF_iff c).mp hwf
  rcases c with ⟨bufs, ro, sz⟩
  dsimp only at hweq hwnil hwhead hwcells hwcap hr ⊢
  have hrole : ro ≤ (joinData bufs).length := by
    rw [length_joinData]
    cases hb : bufs with
    | nil =>
      have := hwnil hb
      omega
    | cons b rest =>
      have h1 := hwhead (by rw [hb]; simp)
      rw [hb, List.headD_cons] at h1
      have h2 : b.len_ ≤ sumLen (b :: rest) := sumLen_head_le
      omega
  unfold WriteStream at hr
  dsimp only at hr
  by_cases htail : bufs ≠ [] ∧ 0 < (bufs.getLastD freshMBuf).rem
  · rw [if_pos htail] at hr
    rcases List.eq_nil_or_concat bufs with hb | ⟨init, x, hcat⟩
    · exact absurd hb htail.1
    rw [List.concat_eq_append] at hcat
    subst hcat
    rw [List.getLastD_concat, List.dropLast_concat] at hr
    have hxmem : 1 ≤ x.len_ ∧ x.len_ ≤ kPayloadSize := hwcells x (by simp)
    by_cases hc : min x.rem (min (kSizeMax - sz) len0) = 0 ∨ uc 0 = true
    · rw [if_pos hc] at hr
      have hx'len : (MBuf.mk (x.data_ ++ chunk src 0 (min x.rem (min (kSizeMax - sz) len0)))
          x.pkt_len_).len_ = x.len_ + min x.rem (min (kSizeMax - sz) len0) := by
        simp [MBuf.len_]
      have hxr : x.rem = kPayloadSize - x.len_ := rfl
      obtain ⟨bro, bsz, bpw, bwl, bjoin, blen, beq, bcells, bnil, bhead, bst, bhu⟩ :=
        wsStage2_spec src uc allocOk (min (kSizeMax - sz) len0) 1
          (min x.rem (min (kSizeMax - sz) len0))
          (init ++ [⟨x.data_ ++ chunk src 0 (min x.rem (min (kSizeMax - sz) len0)),
            x.pkt_len_⟩])
          (sz + min x.rem (min (kSizeMax - sz) len0)) ro (joinData (init ++ [x])) r hr
          (by omega)
          (by
            simp only [sumLen_append, sumLen_cons, sumLen_nil, hx'len]
            simp only [sumLen_append, sumLen_cons, sumLen_nil] at hweq
            omega)
          (by
            rw [List.forall_mem_append]
            constructor
            · intro b hb
              exact hwcells b (by simp [hb])
            · intro b hb
              simp only [List.mem_singleton] at hb
              subst hb
              rw [hx'len]
              omega)
          (by
            intro h
            simp at h)
          (by
            intro _
            cases hin : init with
            | nil =>
              rw [List.nil_append, List.headD_cons, hx'len]
              have h1 := hwhead (by simp)
              rw [hin] at h1
              simp only [List.nil_append, List.headD_cons] at h1
              omega
            | cons i0 it =>
              subst hin
              rw [headD_append_left (by simp)]
              have h1 := hwhead (by simp)
              rw [headD_append_left (by simp)] at h1
              exact h1)
          (by
            simp only [joinData_append, joinData_cons, joinData_nil]
            simp [List.append_assoc])
      refine ⟨bro, by omega, ?_, ?_, bwl, ?_, bst, ?_⟩
      · unfold chainBytes
        rw [bro, bjoin, List.drop_append_of_le_length hrole]
      · simp only [List.length_append, List.length_cons, List.length_nil] at blen ⊢
        omega
      · rw [WF_iff]
        refine ⟨beq, bnil, bhead, bcells, ?_⟩
        omega
      · intro hforall halloc
        obtain ⟨hw, hiff⟩ := bhu hforall halloc
        refine ⟨hw, ?_⟩
        rw [hw]
        exact hiff
    · rw [if_neg hc] at hr
      subst hr
      push_neg at hc
      refine ⟨rfl, by dsimp only <;> omega, ?_, by simp, by dsimp only <;> omega, ?_, ?_, ?_⟩
      · dsimp only
        simp [chainBytes]
      · exact hwf
      · exact Or.inr (Or.inr rfl)
      · intro hforall _
        exact absurd (hforall 0) (by simpa using hc.2)
  · rw [if_neg htail] at hr
    obtain ⟨bro, bsz, bpw, bwl, bjoin, blen, beq, bcells, bnil, bhead, bst, bhu⟩ :=
      wsStage2_spec src uc allocOk (min (kSizeMax - sz) len0) 0 0 bufs sz ro
        (joinData bufs) r hr (by omega) hweq hwcells hwnil hwhead (by simp)
    refine ⟨bro, by omega, ?_, blen, bwl, ?_, bst, ?_⟩
    · unfold chainBytes
      rw [bro, bjoin, List.drop_append_of_le_length hrole]
    · rw [WF_iff]
      refine ⟨beq, bnil, bhead, bcells, ?_⟩
      omega
    · intro hforall halloc
      obtain ⟨hw, hiff⟩ := bhu hforall halloc
      refine ⟨hw, ?_⟩
      rw [hw]
      exact hiff

@[simp]
theorem setPktLen_sumLen (l : Nat) (bs : List MBuf) :
    sumLen (setPktLen l bs) = sumLen bs := by
  cases bs <;> simp [setPktLen, MBuf.len_]

@[simp]
theorem setPktLen_joinData (l : Nat) (bs : List MBuf) :
    joinData (setPktLen l bs) = joinData bs := by
  cases bs <;> simp [setPktLen]

@[simp]
theorem setPktLen_length (l : Nat) (bs : List MBuf) :
    (setPktLen l bs).length = bs.length := by
  cases bs <;> simp [setPktLen]

theorem setPktLen_len_mem {l : Nat} {bs : List MBuf} {b : MBuf}
    (hb : b ∈ setPktLen l bs) : ∃ a ∈ bs, b.len_ = a.len_ := by
  cases bs with
  | nil => simp [setPktLen] at hb
  | cons a rest =>
    simp only [setPktLen, List.mem_cons] at hb
    rcases hb with hb | hb
    · refine ⟨a, by simp, ?_⟩
      rw [hb]
      rfl
    · exact ⟨b, by simp [hb], rfl⟩

theorem WriteDatagram_guards (c : MBufChain) (src : Nat → Nat) (len : Nat)
    (allocOk : Bool) (uc : Nat → Bool) :
    (len = 0 → WriteDatagram c src len allocOk uc = ⟨c, 0, .errInvalidArgs, [], 0⟩) ∧
    (len ≠ 0 → kSizeMax < len →
      WriteDatagram c src len allocOk uc = ⟨c, 0, .errOutOfRange, [], 0⟩) ∧
    (len ≠ 0 → len ≤ kSizeMax → kSizeMax < len + c.size_ →
      WriteDatagram c src len allocOk uc = ⟨c, 0, .errShouldWait, [], 0⟩) ∧
    (len ≠ 0 → len ≤ kSizeMax → len + c.size_ ≤ kSizeMax → allocOk = false →
      WriteDatagram c src len allocOk uc = ⟨c, 0, .errShouldWait, [], 0⟩) := by
  refine ⟨?_, ?_, ?_, ?_⟩
  · intro h1
    unfold WriteDatagram
    rw [if_pos h1]
  · intro h1 h2
    unfold WriteDatagram
    rw [if_neg h1, if_pos h2]
  · intro h1 h2 h3
    unfold WriteDatagram
    rw [if_neg h1, if_neg (by omega : ¬ kSizeMax < len), if_pos h3]
  · intro h1 h2 h3 h4
    unfold WriteDatagram
    rw [if_neg h1, if_neg (by omega : ¬ kSizeMax < len),
      if_neg (by omega : ¬ kSizeMax < len + c.size_), if_pos h4]

theorem WriteDatagram_nonok (c : MBufChain) (src : Nat → Nat) (len : Nat)
    (allocOk : Bool) (uc : Nat → Bool) (r : WResult)
    (hr : r = WriteDatagram c src len allocOk uc) (hst : r.status ≠ .ok) :
    r.chain = c ∧ r.written = 0 := by
  unfold WriteDatagram at hr
  by_cases h1 : len = 0
  · rw [if_pos h1] at hr
    subst hr
    exact ⟨rfl, rfl⟩
  rw [if_neg h1] at hr
  by_cases h2 : kSizeMax < len
  · rw [if_pos h2] at hr
    subst hr
    exact ⟨rfl, rfl⟩
  rw [if_neg h2] at hr
  by_cases h3 : kSizeMax < len + c.size_
  · rw [if_pos h3] at hr
    subst hr
    exact ⟨rfl, rfl⟩
  rw [if_neg h3] at hr
  by_cases h4 : allocOk = false
  · rw [if_pos h4] at hr
    subst hr
    exact ⟨rfl, rfl⟩
  rw [if_neg h4] at hr
  simp only [] at hr
  by_cases h5 : (wdFill src uc len 0 0
      (List.replicate (NumBuffersForPayload len) freshMBuf)).1 = true
  · rw [if_pos h5] at hr
    subst hr
    exact absurd rfl hst
  · rw [if_neg h5] at hr
    subst hr
    exact ⟨rfl, rfl⟩

theorem WriteDatagram_wf (c : MBufChain) (src : Nat → Nat) (len : Nat)
    (allocOk : Bool) (uc : Nat → Bool) (r : WResult)
    (hr : r = WriteDatagram c src len allocOk uc) (hwf : WF c) : WF r.chain := by
  by_cases hst : r.status = .ok
  case neg =>
    obtain ⟨hc, _⟩ := WriteDatagram_nonok c src len allocOk uc r hr hst
    rw [hc]
    exact hwf
  unfold WriteDatagram at hr
  by_cases h1 : len = 0
  · rw [if_pos h1] at hr
    subst hr
    simp at hst
  rw [if_neg h1] at hr
  by_cases h2 : kSizeMax < len
  · rw [if_pos h2] at hr
    subst hr
    simp at hst
  rw [if_neg h2] at hr
  by_cases h3 : kSizeMax < len + c.size_
  · rw [if_pos h3] at hr
    subst hr
    simp at hst
  rw [if_neg h3] at hr
  by_cases h4 : allocOk = false
  · rw [if_pos h4] at hr
    subst hr
    simp at hst
  rw [if_neg h4] at hr
  simp only [] at hr
  by_cases h5 : (wdFill src uc len 0 0
      (List.replicate (NumBuffersForPayload len) freshMBuf)).1 = true
  case neg =>
    rw [if_neg h5] at hr
    subst hr
    simp at hst
  rw [if_pos h5] at hr
  obtain ⟨hfill, _⟩ := wdFill_spec src uc len (NumBuffersForPayload len) 0 0
    (wdFill src uc len 0 0 (List.replicate (NumBuffersForPayload len) freshMBuf))
    rfl (by rw [Nat.sub_zero]) (by omega)
  obtain ⟨hmem, hsum, hjoin, hcard⟩ := hfill h5
  rw [Nat.sub_zero] at hsum hjoin
  obtain ⟨hweq, hwnil, hwhead, hwcells, hwcap⟩ := (WF_iff c).mp hwf
  subst hr
  rw [WF_iff]
  dsimp only
  have hfne : setPktLen len
      (wdFill src uc len 0 0 (List.replicate (NumBuffersForPayload len) freshMBuf)).2
      ≠ [] := by
    have hlen1 : (setPktLen len (wdFill src uc len 0 0
        (List.replicate (NumBuffersForPayload len) freshMBuf)).2).length
        = NumBuffersForPayload len := by
      rw [setPktLen_length, hcard]
    intro h
    rw [h] at hlen1
    have := nbp_pos len
    simp at hlen1
    omega
  refine ⟨?_, ?_, ?_, ?_, ?_⟩
  · rw [sumLen_append, setPktLen_sumLen, hsum]
    omega
  · intro h
    rcases List.append_eq_nil.mp h with ⟨-, h2⟩
    exact absurd h2 hfne
  · intro _
    cases hb : c.buffers_ with
    | nil =>
      rw [List.nil_append]
      cases hf : setPktLen len
          (wdFill src uc len 0 0 (List.replicate (NumBuffersForPayload len) freshMBuf)).2 with
      | nil => exact absurd hf hfne
      | cons f0 frest =>
        rw [List.headD_cons]
        have h0 := hwnil hb
        obtain ⟨a, ha, hlenba⟩ := @setPktLen_len_mem len
          ((wdFill src uc len 0 0
            (List.replicate (NumBuffersForPayload len) freshMBuf)).2) f0
          (by rw [hf]; simp)
        have := (hmem a ha).1
        omega
    | cons b0 brest =>
      rw [headD_append_left (by simp)]
      have h1 := hwhead (by rw [hb]; simp)
      rw [hb] at h1
      exact h1
  · rw [List.forall_mem_append]
    refine ⟨hwcells, ?_⟩
    intro b hb
    obtain ⟨a, ha, hlenba⟩ := setPktLen_len_mem hb
    have := hmem a ha
    rw [hlenba]
    exact ⟨this.1, this.2.1⟩
  · omega

theorem rhLoop_inv (uc : Nat → Bool) (datagram : Bool) (len : Nat) :
    ∀ (bufs : List MBuf) (k pos ro size : Nat) (out : List Nat) (fl : List MBuf)
      (r : LoopOut),
      r = rhLoop uc false datagram len k pos ro size bufs out fl →
      size + ro = sumLen bufs →
      (∀ b ∈ bufs, 1 ≤ b.len_) →
      (bufs = [] → ro = 0) →
      (bufs ≠ [] → ro < (bufs.headD freshMBuf).len_) →
      ∃ j, j ≤ bufs.length ∧ r.bufs = bufs.drop j ∧ r.fl = fl ++ bufs.take j ∧
        r.size + r.ro = sumLen r.bufs ∧
        (r.bufs = [] → r.ro = 0) ∧
        (r.bufs ≠ [] → r.ro < (r.bufs.headD freshMBuf).len_) ∧
        r.size ≤ size := by
  intro bufs
  induction bufs with
  | nil =>
    intro k pos ro size out fl r hr heq hlens hnil hhead
    simp only [rhLoop] at hr
    subst hr
    exact ⟨0, by simp, rfl, by simp, heq, fun _ => hnil rfl, by simp, le_refl _⟩
  | cons b rest ih =>
    intro k pos ro size out fl r hr heq hlens hnil hhead
    have hrolt : ro < b.len_ := by
      have := hhead (by simp)
      simpa using this
    have hsum : size + ro = b.len_ + sumLen rest := by
      rw [heq, sumLen_cons]
    simp only [rhLoop, Bool.false_eq_true, if_false] at hr
    by_cases hpos : pos < len
    case neg =>
      rw [if_neg hpos] at hr
      subst hr
      exact ⟨0, by simp, rfl, by simp, heq, fun h => absurd h (by simp),
        fun _ => hhead (by simp), le_refl _⟩
    rw [if_pos hpos] at hr
    have hcle : min (b.len_ - ro) (len - pos) ≤ b.len_ - ro := min_le_left _ _
    by_cases hc : min (b.len_ - ro) (len - pos) = 0 ∨ uc k = true
    · rw [if_pos hc] at hr
      by_cases hpop : ro + min (b.len_ - ro) (len - pos) = b.len_ ∨ datagram = true
      · rw [if_pos hpop] at hr
        have hsz : (if datagram = true then
            size - min (b.len_ - ro) (len - pos) -
              (b.len_ - (ro + min (b.len_ - ro) (len - pos)))
            else size - min (b.len_ - ro) (len - pos)) + 0 = sumLen rest := by
          by_cases hdg : datagram = true
          · rw [if_pos hdg]
            omega
          · rw [if_neg hdg]
            rcases hpop with hp | hp
            · omega
            · exact absurd hp hdg
        obtain ⟨j, hj, hbufs, hfl, hinv1, hinv2, hinv3, hinv4⟩ :=
          ih (k + 1) (pos + min (b.len_ - ro) (len - pos)) 0
            (if datagram = true then
              size - min (b.len_ - ro) (len - pos) -
                (b.len_ - (ro + min (b.len_ - ro) (len - pos)))
              else size - min (b.len_ - ro) (len - pos))
            (out ++ (b.data_.drop ro).take (min (b.len_ - ro) (len - pos)))
            (fl ++ [b]) r hr hsz (fun x hx => hlens x (by simp [hx]))
            (fun _ => rfl) (fun hne => by
              cases hrest : rest with
              | nil =>
                rw [hrest] at hne
                exact absurd rfl hne
              | cons c0 crest =>
                rw [List.headD_cons]
                have := hlens c0 (by simp [hrest])
                omega)
        refine ⟨j + 1, by simpa using hj, by simpa using hbufs, ?_, hinv1, hinv2,
          hinv3, by split at hinv4 <;> omega⟩
        rw [hfl]
        simp
      · rw [if_neg hpop] at hr
        subst hr
        push_neg at hpop
        refine ⟨0, by simp, rfl, by simp, by dsimp only <;> omega,
          fun h => absurd h (by simp), fun _ => ?_, by dsimp only <;> omega⟩
        dsimp only
        rw [List.headD_cons]
        have := hpop.1
        omega
    · rw [if_neg hc] at hr
      push_neg at hc
      have hclne : ro < b.len_ ∧ min (b.len_ - ro) (len - pos) ≠ 0 := ⟨hrolt, hc.1⟩
      by_cases hpop2 : ro = b.len_ ∨ datagram = true
      · rw [if_pos hpop2] at hr
        subst hr
        have hdg : datagram = true := by
          rcases hpop2 with hp | hp
          · exact absurd hp (by omega)
          · exact hp
        refine ⟨1, by simp, by simp, by simp, ?_, ?_, ?_, ?_⟩
        · dsimp only
          rw [if_pos hdg]
          omega
        · intro _
          rfl
        · intro hne
          dsimp only at hne ⊢
          cases hrest : rest with
          | nil =>
            rw [hrest] at hne
            exact absurd rfl hne
          | cons c0 crest =>
            rw [List.headD_cons]
            have := hlens c0 (by simp [hrest])
            omega
        · dsimp only
          split <;> omega
      · rw [if_neg hpop2] at hr
        subst hr
        exact ⟨0, by simp, rfl, by simp, heq, fun h => absurd h (by simp),
          fun _ => hhead (by simp), le_refl _⟩

theorem rhDrain_inv :
    ∀ (bufs : List MBuf) (ro size : Nat) (fl : List MBuf) (d : DrainOut),
      d = rhDrain ro size bufs fl →
      size + ro = sumLen bufs →
      (∀ b ∈ bufs, 1 ≤ b.len_) →
      (bufs = [] → ro = 0) →
      (bufs ≠ [] → ro < (bufs.headD freshMBuf).len_) →
      ∃ j, j ≤ bufs.length ∧ d.bufs = bufs.drop j ∧ d.fl = fl ++ bufs.take j ∧
        d.size + d.ro = sumLen d.bufs ∧
        (d.bufs = [] → d.ro = 0) ∧
        (d.bufs ≠ [] → d.ro < (d.bufs.headD freshMBuf).len_) ∧
        d.size ≤ size := by
  intro bufs
  induction bufs with
  | nil =>
    intro ro size fl d hd heq hlens hnil hhead
    simp only [rhDrain] at hd
    subst hd
    exact ⟨0, by simp, rfl, by simp, heq, fun _ => hnil rfl, by simp, le_refl _⟩
  | cons b rest ih =>
    intro ro size fl d hd heq hlens hnil hhead
    have hrolt : ro < b.len_ := by
      have := hhead (by simp)
      simpa using this
    have hsum : size + ro = b.len_ + sumLen rest := by
      rw [heq, sumLen_cons]
    simp only [rhDrain] at hd
    by_cases hp : b.pkt_len_ = 0
    · rw [if_pos hp] at hd
      obtain ⟨j, hj, hbufs, hfl, hinv1, hinv2, hinv3, hinv4⟩ :=
        ih 0 (size - (b.len_ - ro)) (fl ++ [b]) d hd (by omega)
          (fun x hx => hlens x (by simp [hx])) (fun _ => rfl)
          (fun hne => by
            cases hrest : rest with
            | nil =>
              rw [hrest] at hne
              exact absurd rfl hne
            | cons c0 crest =>
              rw [List.headD_cons]
              have := hlens c0 (by simp [hrest])
              omega)
      refine ⟨j + 1, by simpa using hj, by simpa using hbufs, ?_, hinv1, hinv2,
        hinv3, by omega⟩
      rw [hfl]
      simp
    · rw [if_neg hp] at hd
      subst hd
      exact ⟨0, by simp, rfl, by simp, heq, fun h => absurd h (by simp),
        fun _ => hhead (by simp), le_refl _⟩

theorem ReadHelper_wf (c : MBufChain) (uc : Nat → Bool) (len0 : Nat) (datagram : Bool)
    (r : RResult) (hr : r = ReadHelper false c uc len0 datagram) (hwf : WF c) :
    WF r.chain ∧ r.chain.size_ ≤ c.size_ := by
  obtain ⟨hweq, hwnil, hwhead, hwcells, hwcap⟩ := (WF_iff c).mp hwf
  unfold ReadHelper at hr
  by_cases h0 : c.size_ = 0
  · rw [if_pos h0] at hr
    subst hr
    exact ⟨hwf, le_refl _⟩
  rw [if_neg h0] at hr
  simp only [Bool.false_eq_true, if_false] at hr
  obtain ⟨j, hj, hbufs, hfl, hinv1, hinv2, hinv3, hinv4⟩ :=
    rhLoop_inv uc datagram
      (if datagram = true ∧ (c.buffers_.headD freshMBuf).pkt_len_ < len0 then
        (c.buffers_.headD freshMBuf).pkt_len_ else len0)
      c.buffers_ 0 0 c.read_cursor_off_ c.size_ [] []
      (rhLoop uc false datagram
        (if datagram = true ∧ (c.buffers_.headD freshMBuf).pkt_len_ < len0 then
          (c.buffers_.headD freshMBuf).pkt_len_ else len0)
        0 0 c.read_cursor_off_ c.size_ c.buffers_ [] []) rfl hweq
      (fun x hx => (hwcells x hx).1) hwnil hwhead
  have hcellsub : ∀ x ∈ (rhLoop uc false datagram
      (if datagram = true ∧ (c.buffers_.headD freshMBuf).pkt_len_ < len0 then
        (c.buffers_.headD freshMBuf).pkt_len_ else len0)
      0 0 c.read_cursor_off_ c.size_ c.buffers_ [] []).bufs,
      1 ≤ x.len_ ∧ x.len_ ≤ kPayloadSize := by
    intro x hx
    rw [hbufs] at hx
    exact hwcells x (List.drop_subset _ _ hx)
  by_cases hdg : datagram = true
  · rw [if_pos hdg] at hr
    obtain ⟨j2, hj2, hbufs2, hfl2, kinv1, kinv2, kinv3, kinv4⟩ :=
      rhDrain_inv _ _ _ _ _ rfl hinv1 (fun x hx => (hcellsub x hx).1) hinv2 hinv3
    subst hr
    constructor
    · rw [WF_iff]
      dsimp only
      refine ⟨kinv1, kinv2, kinv3, ?_, by omega⟩
      intro x hx
      rw [hbufs2] at hx
      have := List.drop_subset _ _ hx
      exact hcellsub x this
    · dsimp only
      omega
  · rw [if_neg hdg] at hr
    subst hr
    constructor
    · rw [WF_iff]
      dsimp only
      exact ⟨hinv1, hinv2, hinv3, hcellsub, by omega⟩
    · dsimp only
      omega

theorem Peek_const (c : MBufChain) (uc : Nat → Bool) (len0 : Nat) (datagram : Bool) :
    (ReadHelper true c uc len0 datagram).chain = c ∧
    (ReadHelper true c uc len0 datagram).freed = [] := by
  unfold ReadHelper
  by_cases h : c.size_ = 0
  · rw [if_pos h]
    exact ⟨rfl, rfl⟩
  · rw [if_neg h]
    exact ⟨rfl, rfl⟩

theorem WF_empty : WF MBufChain.empty := by decide

theorem Reach_WF (c : MBufChain) (h : Reach c) : WF c := by
  induction h with
  | empty => exact WF_empty
  | writeStream c src len allocOk uc h ih =>
    obtain ⟨-, -, -, -, -, hwf, -, -⟩ := WriteStream_spec c src len allocOk uc _ rfl ih
    exact hwf
  | writeDatagram c src len allocOk uc h ih =>
    exact WriteDatagram_wf c src len allocOk uc _ rfl ih
  | read c uc len dg h ih =>
    exact (ReadHelper_wf c uc len dg _ rfl ih).1
  | peek c uc len dg h ih =>
    show WF (ReadHelper true c uc len dg).chain
    rw [(Peek_const c uc len dg).1]
    exact ih

/-- C1: for every chain state and every input, if WriteDatagram returns any
status other than OK then the chain (size, cell sequence and contents, and
read cursor) is unchanged and `written` is set to 0. -/
theorem spec_C1 (c : MBufChain) (src : Nat → Nat) (len : Nat) (allocOk : Bool)
    (uc : Nat → Bool)
    (hst : (WriteDatagram c src len allocOk uc).status ≠ .ok) :
    (WriteDatagram c src len allocOk uc).chain = c ∧
    (WriteDatagram c src len allocOk uc).written = 0 :=
  WriteDatagram_nonok c src len allocOk uc _ rfl hst

theorem spec_C1_witness :
    (WriteDatagram MBufChain.empty (fun _ => 0) 0 true (fun _ => true)).status ≠ .ok ∧
    ((WriteDatagram MBufChain.empty (fun _ => 0) 0 true (fun _ => true)).chain
        = MBufChain.empty ∧
      (WriteDatagram MBufChain.empty (fun _ => 0) 0 true (fun _ => true)).written = 0) :=
  ⟨by decide, spec_C1 MBufChain.empty (fun _ => 0) 0 true (fun _ => true) (by decide)⟩

/-- C8: WriteDatagram performs its pre-admission checks in order, without
allocating or modifying the chain: `len = 0` gives INVALID_ARGS, then
`len > CAPACITY` gives OUT_OF_RANGE, then `len + size > CAPACITY` gives
SHOULD_WAIT, each with `written = 0`. -/
theorem spec_C8 (c : MBufChain) (src : Nat → Nat) (allocOk : Bool) (uc : Nat → Bool)
    (len : Nat) :
    (len = 0 → WriteDatagram c src len allocOk uc = ⟨c, 0, .errInvalidArgs, [], 0⟩) ∧
    (len ≠ 0 → kSizeMax < len →
      WriteDatagram c src len allocOk uc = ⟨c, 0, .errOutOfRange, [], 0⟩) ∧
    (len ≠ 0 → len ≤ kSizeMax → kSizeMax < len + c.size_ →
      WriteDatagram c src len allocOk uc = ⟨c, 0, .errShouldWait, [], 0⟩) := by
  obtain ⟨h1, h2, h3, -⟩ := WriteDatagram_guards c src len allocOk uc
  exact ⟨h1, h2, h3⟩

theorem spec_C8_witness :
    WriteDatagram MBufChain.empty (fun _ => 0) 0 true (fun _ => true)
      = ⟨MBufChain.empty, 0, .errInvalidArgs, [], 0⟩ ∧
    WriteDatagram MBufChain.empty (fun _ => 0) (kSizeMax + 1) true (fun _ => true)
      = ⟨MBufChain.empty, 0, .errOutOfRange, [], 0⟩ ∧
    WriteDatagram ⟨[⟨[7], 0⟩], 0, 1⟩ (fun _ => 0) kSizeMax true (fun _ => true)
      = ⟨⟨[⟨[7], 0⟩], 0, 1⟩, 0, .errShouldWait, [], 0⟩ :=
  ⟨(spec_C8 MBufChain.empty (fun _ => 0) true (fun _ => true) 0).1 rfl,
   (spec_C8 MBufChain.empty (fun _ => 0) true (fun _ => true) (kSizeMax + 1)).2.1
     (by decide) (by decide),
   (spec_C8 ⟨[⟨[7], 0⟩], 0, 1⟩ (fun _ => 0) true (fun _ => true) kSizeMax).2.2
     (by decide) (by decide) (by decide)⟩

/-- C7: Peek never mutates the chain and frees no cell, even when a user copy
fails, and a second Peek with identical arguments on the unchanged chain
returns an identical result (bytes, actual and status). -/
theorem spec_C7 (c : MBufChain) (uc : Nat → Bool) (len : Nat) (datagram : Bool) :
    (MBufChain.Peek c uc len datagram).chain = c ∧
    (MBufChain.Peek c uc len datagram).freed = [] ∧
    MBufChain.Peek (MBufChain.Peek c uc len datagram).chain uc len datagram =
      MBufChain.Peek c uc len datagram := by
  obtain ⟨h1, h2⟩ := Peek_const c uc len datagram
  refine ⟨h1, h2, ?_⟩
  show ReadHelper true (ReadHelper true c uc len datagram).chain uc len datagram = _
  rw [h1]
  rfl

/-- C6: on every chain reachable from the empty chain by public operations,
including failed ones, `size` equals the sum of the cells' valid lengths minus
the read cursor offset. -/
theorem spec_C6 (c : MBufChain) (h : Reach c) :
    c.size_ = sumLen c.buffers_ - c.read_cursor_off_ := by
  obtain ⟨hweq, -, -, -, -⟩ := (WF_iff c).mp (Reach_WF c h)
  omega

theorem spec_C6_witness :
    (WriteDatagram MBufChain.empty (fun i => i) 3 true (fun _ => true)).chain.size_ =
      sumLen (WriteDatagram MBufChain.empty (fun i => i) 3 true
        (fun _ => true)).chain.buffers_ -
      (WriteDatagram MBufChain.empty (fun i => i) 3 true
        (fun _ => true)).chain.read_cursor_off_ :=
  spec_C6 _ (Reach.writeDatagram _ _ _ _ _ Reach.empty)

/-- C5: on reachable chains `size ≤ CAPACITY`; a datagram write with
`len + size > CAPACITY` (after the earlier guards) is rejected whole with
SHOULD_WAIT and no state change; a stream write never admits more than the
remaining capacity. -/
theorem spec_C5 :
    (∀ c : MBufChain, Reach c → c.size_ ≤ kSizeMax) ∧
    (∀ (c : MBufChain) (src : Nat → Nat) (len : Nat) (allocOk : Bool) (uc : Nat → Bool),
      len ≠ 0 → len ≤ kSizeMax → kSizeMax < len + c.size_ →
      WriteDatagram c src len allocOk uc = ⟨c, 0, .errShouldWait, [], 0⟩) ∧
    (∀ (c : MBufChain) (src : Nat → Nat) (len : Nat) (allocOk : Bool) (uc : Nat → Bool),
      WF c → (WriteStream c src len allocOk uc).written ≤ kSizeMax - c.size_) := by
  refine ⟨?_, ?_, ?_⟩
  · intro c h
    obtain ⟨-, -, -, -, hcap⟩ := (WF_iff c).mp (Reach_WF c h)
    exact hcap
  · intro c src len allocOk uc h1 h2 h3
    exact (WriteDatagram_guards c src len allocOk uc).2.2.1 h1 h2 h3
  · intro c src len allocOk uc hwf
    obtain ⟨-, -, -, -, h5, -, -, -⟩ := WriteStream_spec c src len allocOk uc _ rfl hwf
    omega

theorem spec_C5_witness :
    MBufChain.empty.size_ ≤ kSizeMax ∧
    WriteDatagram ⟨[⟨[7], 0⟩], 0, 1⟩ (fun _ => 0) kSizeMax true (fun _ => true)
      = ⟨⟨[⟨[7], 0⟩], 0, 1⟩, 0, .errShouldWait, [], 0⟩ ∧
    (WriteStream MBufChain.empty (fun _ => 0) 5 true (fun _ => true)).written
      ≤ kSizeMax - MBufChain.empty.size_ :=
  ⟨spec_C5.1 MBufChain.empty Reach.empty,
   spec_C5.2.1 ⟨[⟨[7], 0⟩], 0, 1⟩ (fun _ => 0) kSizeMax true (fun _ => true)
     (by decide) (by decide) (by decide),
   spec_C5.2.2 MBufChain.empty (fun _ => 0) 5 true (fun _ => true) (by decide)⟩

/-- C9: on reachable chains, `size` with `datagram` set returns the head cell's
`pkt_len_` when the chain is non-empty and 0 when it is empty; in stream mode
(all cells with `pkt_len_ = 0`) it returns 0; `size` with `datagram` clear always
returns the total unread byte count. -/
theorem spec_C9 (c : MBufChain) (h : Reach c) :
    (c.buffers_ ≠ [] → MBufChain.size c true = (c.buffers_.headD freshMBuf).pkt_len_) ∧
    (c.buffers_ = [] → MBufChain.size c true = 0) ∧
    ((∀ b ∈ c.buffers_, b.pkt_len_ = 0) → MBufChain.size c true = 0) ∧
    MBufChain.size c false = sumLen c.buffers_ - c.read_cursor_off_ := by
  obtain ⟨hweq, hwnil, hwhead, hwcells, -⟩ := (WF_iff c).mp (Reach_WF c h)
  have hsz : c.size_ = 0 ↔ c.buffers_ = [] := by
    cases hb : c.buffers_ with
    | nil =>
      have h0 := hwnil hb
      rw [hb, sumLen_nil] at hweq
      constructor
      · intro _
        rfl
      · intro _
        omega
    | cons b rest =>
      have h1 := hwhead (by rw [hb]; simp)
      rw [hb, List.headD_cons] at h1
      rw [hb, sumLen_cons] at hweq
      constructor
      · intro h0
        exact absurd h0 (by omega)
      · intro hx
        simp at hx
  refine ⟨?_, ?_, ?_, ?_⟩
  · intro hne
    unfold MBufChain.size
    rw [if_pos ⟨rfl, fun h0 => hne (hsz.mp h0)⟩]
  · intro hniltw
    unfold MBufChain.size
    have h0 : c.size_ = 0 := hsz.mpr hniltw
    rw [if_neg (by simp [h0])]
    exact h0
  · intro hall
    unfold MBufChain.size
    by_cases h0 : c.size_ = 0
    · rw [if_neg (by simp [h0])]
      exact h0
    · rw [if_pos ⟨rfl, h0⟩]
      cases hb : c.buffers_ with
      | nil => exact absurd (hsz.mpr hb) h0
      | cons b rest =>
        rw [List.headD_cons]
        exact hall b (by rw [hb]; simp)
  · unfold MBufChain.size
    rw [if_neg (by simp)]
    omega

theorem spec_C9_witness :
    (let c := (WriteDatagram MBufChain.empty (fun i => i) 3 true (fun _ => true)).chain
    (c.buffers_ ≠ [] → MBufChain.size c true = (c.buffers_.headD freshMBuf).pkt_len_) ∧
    (c.buffers_ = [] → MBufChain.size c true = 0) ∧
    ((∀ b ∈ c.buffers_, b.pkt_len_ = 0) → MBufChain.size c true = 0) ∧
    MBufChain.size c false = sumLen c.buffers_ - c.read_cursor_off_) :=
  spec_C9 _ (Reach.writeDatagram _ _ _ _ _ Reach.empty)

/-- C3 counterexample: starting from a well-formed chain with one byte stored
(so 4063 bytes of tail space) and an allocator that fails, a stream write of
4064 bytes fills the tail, skips allocation, and returns OK with
`written = 4063`, not `min(len, CAPACITY - size) = 4064`. -/
theorem spec_C3_cex :
    (WriteStream ⟨[⟨[7], 0⟩], 0, 1⟩ (fun _ => 0) 4064 false (fun _ => true)).status
      = .ok ∧
    (WriteStream ⟨[⟨[7], 0⟩], 0, 1⟩ (fun _ => 0) 4064 false (fun _ => true)).written
      ≠ min 4064 (kSizeMax - (MBufChain.mk [⟨[7], 0⟩] 0 1).size_) := by
  constructor
  · decide
  · decide

/-- C3 (amended): when the allocator succeeds and every user copy succeeds,
if WriteStream returns OK then `written = min(len, CAPACITY - size)`, and it
returns SHOULD_WAIT exactly when `written = 0`.  (As stated the claim fails
when the allocator fails after a partial tail fill, and a user-copy fault can
return the copy error with `written = 0`.) -/
theorem spec_C3 (c : MBufChain) (src : Nat → Nat) (len0 : Nat) (uc : Nat → Bool)
    (hwf : WF c) (hu : ∀ k, uc k = true) :
    ((WriteStream c src len0 true uc).status = .ok →
      (WriteStream c src len0 true uc).written = min len0 (kSizeMax - c.size_)) ∧
    ((WriteStream c src len0 true uc).status = .errShouldWait ↔
      (WriteStream c src len0 true uc).written = 0) := by
  obtain ⟨-, -, -, -, -, -, -, h8⟩ := WriteStream_spec c src len0 true uc _ rfl hwf
  obtain ⟨hw, hiff⟩ := h8 hu rfl
  constructor
  · intro _
    rw [hw, Nat.min_comm]
  · exact hiff

theorem spec_C3_witness :
    ((WriteStream MBufChain.empty (fun _ => 0) 5 true (fun _ => true)).status = .ok →
      (WriteStream MBufChain.empty (fun _ => 0) 5 true (fun _ => true)).written
        = min 5 (kSizeMax - MBufChain.empty.size_)) ∧
    ((WriteStream MBufChain.empty (fun _ => 0) 5 true (fun _ => true)).status
        = .errShouldWait ↔
      (WriteStream MBufChain.empty (fun _ => 0) 5 true (fun _ => true)).written = 0) :=
  spec_C3 MBufChain.empty (fun _ => 0) 5 (fun _ => true) (by decide) (fun _ => rfl)

/-- C2: if a user copy fails during WriteStream (the returned status is the
pass-through copy error), all bytes of earlier successful copies remain
committed — the chain grows by exactly `written` bytes, which are the first
`written` bytes of the clamped source — the read cursor is untouched, the
failing call commits nothing, and every allocated cell is either appended to
the chain or freed. -/
theorem spec_C2 (c : MBufChain) (src : Nat → Nat) (len0 : Nat) (allocOk : Bool)
    (uc : Nat → Bool) (hwf : WF c)
    (herr : (WriteStream c src len0 allocOk uc).status = .errBadAccess) :
    (WriteStream c src len0 allocOk uc).chain.size_
      = c.size_ + (WriteStream c src len0 allocOk uc).written ∧
    chainBytes (WriteStream c src len0 allocOk uc).chain
      = chainBytes c ++ chunk src 0 (WriteStream c src len0 allocOk uc).written ∧
    (WriteStream c src len0 allocOk uc).chain.read_cursor_off_ = c.read_cursor_off_ ∧
    (WriteStream c src len0 allocOk uc).chain.buffers_.length
        + (WriteStream c src len0 allocOk uc).freed.length
      = c.buffers_.length + (WriteStream c src len0 allocOk uc).allocCount := by
  obtain ⟨h1, h2, h3, h4, -, -, -, -⟩ := WriteStream_spec c src len0 allocOk uc _ rfl hwf
  exact ⟨h2, h3, h1, h4⟩

theorem spec_C2_witness :
    WF MBufChain.empty ∧
    (WriteStream MBufChain.empty (fun _ => 9) 1 true (fun _ => false)).status
      = .errBadAccess ∧
    ((WriteStream MBufChain.empty (fun _ => 9) 1 true (fun _ => false)).chain.size_
      = MBufChain.empty.size_
        + (WriteStream MBufChain.empty (fun _ => 9) 1 true (fun _ => false)).written ∧
    chainBytes (WriteStream MBufChain.empty (fun _ => 9) 1 true (fun _ => false)).chain
      = chainBytes MBufChain.empty ++ chunk (fun _ => 9) 0
          (WriteStream MBufChain.empty (fun _ => 9) 1 true (fun _ => false)).written ∧
    (WriteStream MBufChain.empty (fun _ => 9) 1 true
        (fun _ => false)).chain.read_cursor_off_
      = MBufChain.empty.read_cursor_off_ ∧
    (WriteStream MBufChain.empty (fun _ => 9) 1 true (fun _ => false)).chain.buffers_.length
        + (WriteStream MBufChain.empty (fun _ => 9) 1 true (fun _ => false)).freed.length
      = MBufChain.empty.buffers_.length
        + (WriteStream MBufChain.empty (fun _ => 9) 1 true (fun _ => false)).allocCount) :=
  ⟨by decide, by decide,
   spec_C2 MBufChain.empty (fun _ => 9) 1 true (fun _ => false) (by decide) (by decide)⟩

theorem rhLoop_dg (uc : Nat → Bool) (len : Nat) :
    ∀ (cs rest : List MBuf) (k pos size : Nat) (out : List Nat) (fl : List MBuf)
      (r : LoopOut),
      r = rhLoop uc false true len k pos 0 size (cs ++ rest) out fl →
      pos < len → len ≤ pos + sumLen cs → sumLen cs ≤ size →
      ∃ j, 1 ≤ j ∧ j ≤ cs.length ∧
        r.bufs = cs.drop j ++ rest ∧
        r.fl = fl ++ cs.take j ∧
        r.ro = 0 ∧
        r.size = size - sumLen (cs.take j) ∧
        r.out = out ++ (joinData cs).take (r.pos - pos) ∧
        pos ≤ r.pos ∧ r.pos ≤ len ∧
        (r.status = .ok → r.pos = len) ∧
        (r.status = .ok ∨ r.status = .errBadAccess) := by
  intro cs
  induction cs with
  | nil =>
    intro rest k pos size out fl r hr hpos hlen hsz
    exfalso
    simp only [sumLen_nil] at hlen
    omega
  | cons b cs2 ih =>
    intro rest k pos size out fl r hr hpos hlen hsz
    rw [List.cons_append] at hr
    simp only [rhLoop, Bool.false_eq_true, if_false, Nat.zero_add, Nat.sub_zero,
      List.drop_zero, or_true, if_true] at hr
    rw [if_pos hpos] at hr
    have hble : b.len_ ≤ size := by
      simp only [sumLen_cons] at hsz
      omega
    have hlenb : b.data_.length = b.len_ := rfl
    by_cases hc : min b.len_ (len - pos) = 0 ∨ uc k = true
    · rw [if_pos hc] at hr
      by_cases hfin : pos + min b.len_ (len - pos) < len
      · have hclb : min b.len_ (len - pos) = b.len_ := by omega
        obtain ⟨j, hj1, hj2, hbufs, hfl, hro, hsize, hout, hp1, hp2, hok, hst⟩ :=
          ih rest (k + 1) (pos + min b.len_ (len - pos))
            (size - min b.len_ (len - pos) - (b.len_ - min b.len_ (len - pos)))
            (out ++ List.take (min b.len_ (len - pos)) b.data_)
            (fl ++ [b]) r hr hfin
            (by
              simp only [sumLen_cons] at hlen
              omega)
            (by
              simp only [sumLen_cons] at hsz
              omega)
        refine ⟨j + 1, by omega, by simp only [List.length_cons]; omega, ?_, ?_, hro,
          ?_, ?_, by omega, hp2, hok, hst⟩
        · rw [hbufs, List.drop_succ_cons]
        · rw [hfl, List.take_succ_cons]
          simp
        · rw [hsize, List.take_succ_cons, sumLen_cons]
          omega
        · rw [hout, hclb]
          rw [joinData_cons]
          have harith : r.pos - pos = b.data_.length + (r.pos - (pos + b.len_)) := by
            rw [hlenb]
            omega
          have htake : List.take b.len_ b.data_ = b.data_ := by
            rw [← hlenb]
            exact List.take_length _
          rw [harith, List.take_append, htake]
          simp [List.append_assoc]
      · have hple : pos + min b.len_ (len - pos) = len := by omega
        have hfinal : r = ⟨pos + min b.len_ (len - pos), 0,
            size - min b.len_ (len - pos) - (b.len_ - min b.len_ (len - pos)),
            cs2 ++ rest,
            out ++ List.take (min b.len_ (len - pos)) b.data_,
            fl ++ [b], .ok⟩ := by
          cases hcr : cs2 ++ rest with
          | nil =>
            rw [hcr] at hr
            simp only [rhLoop] at hr
            exact hr
          | cons q qs =>
            rw [hcr] at hr
            simp only [rhLoop, Bool.false_eq_true, if_false] at hr
            rw [if_neg (by omega : ¬ pos + min b.len_ (len - pos) < len)] at hr
            exact hr
        subst hfinal
        refine ⟨1, le_refl _, by simp, by simp, by simp, rfl, ?_, ?_, ?_, ?_, ?_,
          Or.inl rfl⟩
        · dsimp only
          simp only [List.take_succ_cons, List.take_zero, sumLen_cons, sumLen_nil]
          omega
        · dsimp only
          have h0 : pos + min b.len_ (len - pos) - pos = min b.len_ (len - pos) := by
            omega
          rw [h0, joinData_cons,
            List.take_append_of_le_length (by rw [hlenb]; omega)]
        · dsimp only
          omega
        · dsimp only
          omega
        · intro _
          dsimp only
          omega
    · rw [if_neg hc] at hr
      subst hr
      refine ⟨1, le_refl _, by simp, by simp, by simp, rfl, ?_, by simp, ?_, ?_, ?_,
        Or.inr rfl⟩
      · dsimp only
        simp only [List.take_succ_cons, List.take_zero, sumLen_cons, sumLen_nil]
        omega
      · dsimp only
        omega
      · dsimp only
        omega
      · intro h
        exact absurd h (by simp)

theorem rhDrain_zeros :
    ∀ (cs rest : List MBuf) (size : Nat) (fl : List MBuf),
      (∀ b ∈ cs, b.pkt_len_ = 0) →
      (rest = [] ∨ (rest.headD freshMBuf).pkt_len_ ≠ 0) →
      rhDrain 0 size (cs ++ rest) fl = ⟨0, size - sumLen cs, rest, fl ++ cs⟩ := by
  intro cs
  induction cs with
  | nil =>
    intro rest size fl _ hrest
    rcases hrest with h | h
    · subst h
      simp [rhDrain]
    · cases rest with
      | nil =>
        simp [rhDrain]
      | cons b r2 =>
        rw [List.nil_append]
        simp only [rhDrain]
        rw [List.headD_cons] at h
        rw [if_neg h]
        simp
  | cons b cs2 ih =>
    intro rest size fl hzero hrest
    rw [List.cons_append]
    simp only [rhDrain]
    rw [if_pos (hzero b (by simp))]
    rw [ih rest (size - (b.len_ - 0)) (fl ++ [b]) (fun x hx => hzero x (by simp [hx]))
      hrest]
    have h1 : size - (b.len_ - 0) - sumLen cs2 = size - sumLen (b :: cs2) := by
      rw [sumLen_cons]
      omega
    rw [h1]
    simp

/-- C10: a Read of zero bytes in datagram mode from a non-empty datagram chain
returns `(0, OK)` and leaves the chain completely unchanged: nothing is
consumed, discarded or freed. -/
theorem spec_C10 (c : MBufChain) (uc : Nat → Bool)
    (hne : c.size_ ≠ 0) (hd : (c.buffers_.headD freshMBuf).pkt_len_ ≠ 0) :
    MBufChain.Read c uc 0 true = ⟨c, [], 0, .ok, []⟩ := by
  rcases c with ⟨bufs, ro, sz⟩
  dsimp only at hne hd
  show ReadHelper false ⟨bufs, ro, sz⟩ uc 0 true = _
  unfold ReadHelper
  rw [if_neg hne]
  dsimp only
  simp only [true_and, Bool.false_eq_true, if_false]
  rw [if_neg (Nat.not_lt_zero ((bufs.headD freshMBuf).pkt_len_))]
  cases bufs with
  | nil =>
    simp only [rhLoop, rhDrain, if_true]
  | cons b rest =>
    simp only [List.headD_cons] at hd
    simp only [rhLoop, Nat.lt_irrefl, if_false, if_true, rhDrain]
    rw [if_neg hd]

theorem spec_C10_witness :
    MBufChain.Read ⟨[⟨[1, 2, 3], 3⟩], 0, 3⟩ (fun _ => true) 0 true
      = ⟨⟨[⟨[1, 2, 3], 3⟩], 0, 3⟩, [], 0, .ok, []⟩ :=
  spec_C10 ⟨[⟨[1, 2, 3], 3⟩], 0, 3⟩ (fun _ => true) (by decide) (by decide)

/-- C4 counterexample: a datagram Read with requested length 0 on a chain
holding one written datagram is successful (returns OK) yet consumes nothing:
the datagram is not removed from the chain.  This refutes the claim as stated,
which asserts that each successful datagram Read removes the entire oldest
datagram. -/
theorem spec_C4_cex :
    (MBufChain.Read ⟨[⟨[1, 2, 3], 3⟩], 0, 3⟩ (fun _ => true) 0 true).status = .ok ∧
    (MBufChain.Read ⟨[⟨[1, 2, 3], 3⟩], 0, 3⟩ (fun _ => true) 0 true).chain
      = ⟨[⟨[1, 2, 3], 3⟩], 0, 3⟩ ∧
    (MBufChain.Read ⟨[⟨[1, 2, 3], 3⟩], 0, 3⟩ (fun _ => true) 0 true).chain.buffers_
      ≠ [] := by
  refine ⟨by decide, by decide, by decide⟩

/-- C4 (amended): in datagram mode, for every chain holding at least one
written datagram and every request of at least one byte, Read returns a prefix
of exactly the oldest written datagram (the bytes delivered are an initial
segment of its payload), removes that entire datagram from the chain — its
cells are exactly the freed cells, the remaining cells are the later
datagrams, the cursor returns to 0 and `size` drops by the whole frame — even
when a UserCopy fails; on OK the returned length is `min(len, frame_len)`. -/
theorem spec_C4 (c : MBufChain) (d : List MBuf) (ds : List (List MBuf))
    (uc : Nat → Bool) (len0 : Nat) (hdg : DgChain c (d :: ds)) (hl : 1 ≤ len0) :
    (MBufChain.Read c uc len0 true).chain.buffers_ = ds.flatten ∧
    (MBufChain.Read c uc len0 true).chain.read_cursor_off_ = 0 ∧
    (MBufChain.Read c uc len0 true).chain.size_ = c.size_ - sumLen d ∧
    (MBufChain.Read c uc len0 true).freed = d ∧
    (MBufChain.Read c uc len0 true).bytes
      = (joinData d).take (MBufChain.Read c uc len0 true).actual ∧
    (MBufChain.Read c uc len0 true).actual ≤ min len0 (sumLen d) ∧
    ((MBufChain.Read c uc len0 true).status = .ok →
      (MBufChain.Read c uc len0 true).actual = min len0 (sumLen d)) := by
  obtain ⟨hbuf, hro, hsz, hall⟩ := hdg
  obtain ⟨hdne, hdpkt, hdtail, hdlens⟩ := hall d (by simp)
  obtain ⟨d0, dtail, hd⟩ : ∃ d0 dtail, d = d0 :: dtail := by
    cases d with
    | nil => exact absurd rfl hdne
    | cons a l => exact ⟨a, l, rfl⟩
  subst hd
  have hd0len : 1 ≤ d0.len_ := hdlens d0 (by simp)
  have hdsum1 : 1 ≤ sumLen (d0 :: dtail) := by
    rw [sumLen_cons]
    omega
  have hszval : c.size_ = sumLen (d0 :: dtail) + sumLen ds.flatten := by
    rw [hsz, List.flatten_cons, sumLen_append]
  have hszne : c.size_ ≠ 0 := by omega
  have hfront : c.buffers_.headD freshMBuf = d0 := by
    rw [hbuf, List.flatten_cons, List.cons_append, List.headD_cons]
  have hd0pkt : d0.pkt_len_ = sumLen (d0 :: dtail) := by
    simpa using hdpkt
  set r := MBufChain.Read c uc len0 true with hr
  rw [MBufChain.Read] at hr
  unfold ReadHelper at hr
  rw [if_neg hszne] at hr
  dsimp only at hr
  rw [hfront] at hr
  have hclamp : (if (true : Bool) = true ∧ d0.pkt_len_ < len0 then d0.pkt_len_ else len0)
      = min len0 (sumLen (d0 :: dtail)) := by
    rw [hd0pkt]
    by_cases hx : sumLen (d0 :: dtail) < len0
    · rw [if_pos ⟨rfl, hx⟩]
      omega
    · rw [if_neg (by
        intro hcon
        exact hx hcon.2)]
      omega
  rw [hclamp] at hr
  simp only [Bool.false_eq_true, if_false, if_true] at hr
  rw [hbuf, List.flatten_cons, hro] at hr
  obtain ⟨j, hj1, hj2, hbufs2, hfl2, hro2, hsize2, hout2, hp1, hp2, hok, hst⟩ :=
    rhLoop_dg uc (min len0 (sumLen (d0 :: dtail))) (d0 :: dtail) ds.flatten 0 0
      c.size_ [] [] _ rfl (by omega) (by omega) (by omega)
  have hdropsub : ∀ b ∈ (d0 :: dtail).drop j, b.pkt_len_ = 0 := by
    intro b hb
    have hdrop : (d0 :: dtail).drop j = dtail.drop (j - 1) := by
      cases j with
      | zero => omega
      | succ m =>
        rw [List.drop_succ_cons]
        simp
    rw [hdrop] at hb
    exact hdtail b (by simpa using List.drop_subset _ _ hb)
  have hreststop : ds.flatten = [] ∨ (ds.flatten.headD freshMBuf).pkt_len_ ≠ 0 := by
    cases hds : ds with
    | nil => exact Or.inl rfl
    | cons e es =>
      right
      obtain ⟨hene, hepkt, -, helens⟩ := hall e (by rw [hds]; simp)
      obtain ⟨e0, etail, he⟩ : ∃ e0 etail, e = e0 :: etail := by
        cases e with
        | nil => exact absurd rfl hene
        | cons a l => exact ⟨a, l, rfl⟩
      subst he
      rw [List.flatten_cons, List.cons_append, List.headD_cons]
      have he0len : 1 ≤ e0.len_ := helens e0 (by simp)
      have : e0.pkt_len_ = sumLen (e0 :: etail) := by simpa using hepkt
      rw [this, sumLen_cons]
      omega
  rw [hro2, hbufs2, hfl2] at hr
  rw [rhDrain_zeros ((d0 :: dtail).drop j) ds.flatten _ _ hdropsub hreststop] at hr
  have hsplit : sumLen ((d0 :: dtail).take j) + sumLen ((d0 :: dtail).drop j)
      = sumLen (d0 :: dtail) := by
    rw [← sumLen_append, List.take_append_drop]
  rw [hr]
  refine ⟨rfl, rfl, ?_, ?_, ?_, hp2, hok⟩
  · dsimp only
    omega
  · dsimp only
    rw [List.nil_append, List.take_append_drop]
  · dsimp only
    rw [hout2]
    simp

theorem spec_C4_witness :
    (let c : MBufChain := ⟨[⟨[1, 2], 2⟩, ⟨[5, 6, 7], 3⟩], 0, 5⟩
    let d : List MBuf := [⟨[1, 2], 2⟩]
    let ds : List (List MBuf) := [[⟨[5, 6, 7], 3⟩]]
    (MBufChain.Read c (fun _ => true) 1 true).chain.buffers_ = ds.flatten ∧
    (MBufChain.Read c (fun _ => true) 1 true).chain.read_cursor_off_ = 0 ∧
    (MBufChain.Read c (fun _ => true) 1 true).chain.size_ = c.size_ - sumLen d ∧
    (MBufChain.Read c (fun _ => true) 1 true).freed = d ∧
    (MBufChain.Read c (fun _ => true) 1 true).bytes
      = (joinData d).take (MBufChain.Read c (fun _ => true) 1 true).actual ∧
    (MBufChain.Read c (fun _ => true) 1 true).actual ≤ min 1 (sumLen d) ∧
    ((MBufChain.Read c (fun _ => true) 1 true).status = .ok →
      (MBufChain.Read c (fun _ => true) 1 true).actual = min 1 (sumLen d))) :=
  spec_C4 ⟨[⟨[1, 2], 2⟩, ⟨[5, 6, 7], 3⟩], 0, 5⟩ [⟨[1, 2], 2⟩] [[⟨[5, 6, 7], 3⟩]]
    (fun _ => true) 1 (by decide) (by decide)

end MbufModel
